import Mathlib

/-!
Verification of the zrobot-backend real-time conversation pipeline.

This file gives a shallow embedding, in Lean 4, of the parts of the
backend that the specification's testable claims are about:

* the streaming segment parser of `app/services/agent.py`
  (`SegmentParser.feed` / `SegmentParser.finalize`);
* the ASR worker loop of `app/websocket/handler.py`
  (`ensure_asr_session.asr_worker`);
* the server message constructors and their serialization
  (`app/websocket/protocol.py`, `ConnectionManager.send_message`);
* the TTS streaming receive loop (`app/services/tts.py`);
* the Redis cleanup performed by `finalize_conversation`
  (`app/api/v1/conversation.py`);
* the interrupted-turn bookkeeping of
  `AIAgent.process_text_with_segments` (`app/services/agent.py`);
* the per-frame VAD / barge-in admission logic of
  `handle_user_audio_chunk` (`app/websocket/handler.py`);
* the connection registry (`app/websocket/manager.py`);
* the RMS computation `_pcm_rms_db` (`app/websocket/handler.py`).

Strings from the Python code are modelled as `List Char`; Python's
`str.find` is `findSub`, `str.strip` is `trim`, byte strings are
`List (Fin 256)`, floats used only for threshold comparisons are `ℚ`,
and the genuinely real-valued RMS/log math is `ℝ`.
-/

namespace ZRobot

/-! ## String primitives: Python `str.find` and `str.strip` -/

/-- Bool test that `pat` is an initial run of `s` (char-by-char). -/
def startsWith : List Char → List Char → Bool
  | [], _ => true
  | _ :: _, [] => false
  | p :: ps, c :: cs => p == c && startsWith ps cs

/-- Python `s.find(pat)`: index of the first occurrence of `pat` in `s`,
`none` for Python's `-1`. -/
def findSub (pat : List Char) : List Char → Option Nat
  | [] => if startsWith pat [] then some 0 else none
  | c :: t =>
    if startsWith pat (c :: t) then some 0
    else (findSub pat t).map (· + 1)

/-- Python `s.strip()`: drop whitespace from both ends. -/
def trim (s : List Char) : List Char :=
  ((s.dropWhile Char.isWhitespace).reverse.dropWhile Char.isWhitespace).reverse

theorem startsWith_append (pat s : List Char) :
    startsWith pat (pat ++ s) = true := by
  induction pat with
  | nil => rfl
  | cons p ps ih => simp [startsWith, ih]

theorem findSub_nil (pat : List Char) (h : pat ≠ []) : findSub pat [] = none := by
  cases pat with
  | nil => exact absurd rfl h
  | cons p ps => simp [findSub, startsWith]

theorem startsWith_length_le (pat s : List Char)
    (h : startsWith pat s = true) : pat.length ≤ s.length := by
  induction pat generalizing s with
  | nil => simp
  | cons p ps ih =>
    cases s with
    | nil => simp [startsWith] at h
    | cons c t =>
      simp [startsWith] at h
      have := ih t h.2
      simp
      omega

theorem findSub_of_startsWith (pat s : List Char)
    (h : startsWith pat s = true) : findSub pat s = some 0 := by
  cases s with
  | nil => simp [findSub, h]
  | cons c t => simp [findSub, h]

theorem findSub_self (pat s : List Char) : findSub pat (pat ++ s) = some 0 :=
  findSub_of_startsWith pat (pat ++ s) (startsWith_append pat s)

/-- If `pat` occurs at some index of `s`, that index plus `pat.length`
is within `s`. -/
theorem findSub_bound (pat s : List Char) (i : Nat)
    (h : findSub pat s = some i) : i + pat.length ≤ s.length := by
  induction s generalizing i with
  | nil =>
    by_cases hs : startsWith pat [] = true
    · simp [findSub, hs] at h
      subst h
      cases pat with
      | nil => simp
      | cons p ps => simp [startsWith] at hs
    · simp [findSub, hs] at h
  | cons c t ih =>
    by_cases hs : startsWith pat (c :: t) = true
    · simp [findSub, hs] at h
      subst h
      simpa using startsWith_length_le pat (c :: t) hs
    · simp [findSub, hs] at h
      obtain ⟨j, hj, rfl⟩ := h
      have := ih j hj
      simp
      omega

/-- Shifting a search over a run of characters that cannot start the
pattern (the tags all start with a bracket the run lacks). -/
theorem findSub_shift (p' s run : List Char)
    (hpre : ∀ c ∈ run, c ≠ '[') :
    findSub ('[' :: p') (run ++ s) =
      (findSub ('[' :: p') s).map (· + run.length) := by
  induction run with
  | nil => simp
  | cons c r ih =>
    have hc : c ≠ '[' := hpre c (by simp)
    have hr : ∀ x ∈ r, x ≠ '[' := fun x hx => hpre x (by simp [hx])
    have hsw : startsWith ('[' :: p') (c :: (r ++ s)) = false := by
      simp [startsWith]
      intro h
      exact absurd h.symm hc
    have hstep : findSub ('[' :: p') ((c :: r) ++ s) =
        (findSub ('[' :: p') (r ++ s)).map (· + 1) := by
      rw [List.cons_append, findSub, hsw]
      simp
    rw [hstep, ih hr]
    cases h : findSub ('[' :: p') s with
    | none => simp
    | some i =>
      simp only [Option.map_some, Option.map_map, Option.some.injEq]
      simp

theorem findSub_after (p' s run : List Char)
    (hpre : ∀ c ∈ run, c ≠ '[') :
    findSub ('[' :: p') (run ++ ('[' :: p') ++ s) = some run.length := by
  rw [List.append_assoc, findSub_shift p' (('[' :: p') ++ s) run hpre,
    findSub_self]
  simp

/-! ## Segment parser (`app/services/agent.py`, class `SegmentParser`)

The parser state mirrors the Python instance attributes; `feed`'s
`while True` loop body is `stepOnce` (its four sequential tag-scanning
blocks are the four chained functions below, each "break" returning
`halt`), and the loop itself is `feedLoop`. -/

/-- The `Segment` dataclass (the `audio_base64` attachment is filled in
later by TTS and plays no role in parsing). -/
structure Segment where
  segmentId : Nat
  speech : List Char
  board : List Char
deriving DecidableEq, Repr

/-- State of a `SegmentParser` instance. -/
structure SegmentParser where
  buffer : List Char
  currentSegmentId : Nat
  currentSpeech : List Char
  currentBoard : List Char
  inSpeech : Bool
  inBoard : Bool
deriving DecidableEq, Repr

/-- `SegmentParser.__init__` / `reset`. -/
def SegmentParser.init : SegmentParser :=
  ⟨[], 0, [], [], false, false⟩

def tagS : List Char := ['[', 'S', ']']
def tagCloseS : List Char := ['[', '/', 'S', ']']
def tagB : List Char := ['[', 'B', ']']
def tagCloseB : List Char := ['[', '/', 'B', ']']

/-- Result of one iteration of the `while True` body of `feed`:
either a `break` happened (`halt`), or the iteration ran to the bottom
and the loop continues, having emitted at most one segment. -/
inductive StepRes where
  | halt (st : SegmentParser)
  | cont (out : Option Segment) (st : SegmentParser)
deriving DecidableEq, Repr

/-- Fourth block of the loop body: look for the `[/B]` end tag; on a
match emit the segment and reset the per-segment fields. -/
def stepBoardClose (st : SegmentParser) : StepRes :=
  if st.inBoard then
    match findSub tagCloseB st.buffer with
    | none => .halt st
    | some m =>
      .cont (some ⟨st.currentSegmentId, st.currentSpeech, trim (st.buffer.take m)⟩)
        { st with
          buffer := st.buffer.drop (m + 4)
          inBoard := false
          currentSegmentId := st.currentSegmentId + 1
          currentSpeech := []
          currentBoard := [] }
  else .cont none st

/-- Third block: look for the `[B]` start tag (only with a pending
non-empty speech). -/
def stepBoardOpen (st : SegmentParser) : StepRes :=
  if st.inSpeech = false ∧ st.inBoard = false ∧ st.currentSpeech ≠ [] then
    match findSub tagB st.buffer with
    | none => .halt st
    | some k =>
      stepBoardClose
        { st with
          buffer := st.buffer.drop (k + 3)
          inBoard := true
          currentBoard := [] }
  else stepBoardClose st

/-- Second block: look for the `[/S]` end tag; on a match stash the
trimmed speech. -/
def stepSpeechClose (st : SegmentParser) : StepRes :=
  if st.inSpeech then
    match findSub tagCloseS st.buffer with
    | none => .halt st
    | some j =>
      stepBoardOpen
        { st with
          currentSpeech := trim (st.buffer.take j)
          buffer := st.buffer.drop (j + 4)
          inSpeech := false }
  else stepBoardOpen st

/-- First block: look for the `[S]` start tag when outside both tags. -/
def stepOnce (st : SegmentParser) : StepRes :=
  if st.inSpeech = false ∧ st.inBoard = false then
    match findSub tagS st.buffer with
    | none => .halt st
    | some i =>
      stepSpeechClose
        { st with
          buffer := st.buffer.drop (i + 3)
          inSpeech := true
          currentSpeech := [] }
  else stepSpeechClose st

theorem stepBoardClose_cont (st : SegmentParser) (out : Option Segment)
    (st' : SegmentParser) (h : stepBoardClose st = .cont out st') :
    st'.buffer.length ≤ st.buffer.length ∧
      (st.inBoard = true → st'.buffer.length < st.buffer.length) := by
  unfold stepBoardClose at h
  by_cases hb : st.inBoard
  · simp [hb] at h
    cases hm : findSub tagCloseB st.buffer with
    | none => simp [hm] at h
    | some m =>
      have hbd := findSub_bound _ _ _ hm
      simp [tagCloseB] at hbd
      simp [hm] at h
      obtain ⟨_, hst⟩ := h
      subst hst
      simp
      omega
  · simp [hb] at h
    obtain ⟨_, hst⟩ := h
    subst hst
    simp [hb]

theorem stepBoardOpen_cont (st : SegmentParser) (out : Option Segment)
    (st' : SegmentParser) (h : stepBoardOpen st = .cont out st') :
    st'.buffer.length ≤ st.buffer.length ∧
      (st.inBoard = true → st'.buffer.length < st.buffer.length) := by
  unfold stepBoardOpen at h
  by_cases hg : st.inSpeech = false ∧ st.inBoard = false ∧ st.currentSpeech ≠ []
  · simp [hg] at h
    cases hm : findSub tagB st.buffer with
    | none => simp [hm] at h
    | some k =>
      have hbd := findSub_bound _ _ _ hm
      simp [tagB] at hbd
      simp [hm] at h
      have := stepBoardClose_cont _ _ _ h
      constructor
      · calc st'.buffer.length ≤ _ := this.1
          _ ≤ st.buffer.length := by simp only [List.length_drop]; omega
      · intro hb
        exact absurd hb (by simp [hg.2.1])
  · simp [hg] at h
    exact stepBoardClose_cont _ _ _ h

theorem stepSpeechClose_cont (st : SegmentParser) (out : Option Segment)
    (st' : SegmentParser) (h : stepSpeechClose st = .cont out st') :
    st'.buffer.length ≤ st.buffer.length ∧
      ((st.inSpeech = true ∨ st.inBoard = true) →
        st'.buffer.length < st.buffer.length) := by
  unfold stepSpeechClose at h
  by_cases hs : st.inSpeech
  · simp [hs] at h
    cases hm : findSub tagCloseS st.buffer with
    | none => simp [hm] at h
    | some j =>
      have hbd := findSub_bound _ _ _ hm
      simp [tagCloseS] at hbd
      simp [hm] at h
      have := stepBoardOpen_cont _ _ _ h
      have hlt : st.buffer.length - (j + 4) < st.buffer.length := by omega
      constructor
      · calc st'.buffer.length ≤ _ := this.1
          _ ≤ st.buffer.length := by simp only [List.length_drop]; omega
      · intro _
        calc st'.buffer.length ≤ _ := this.1
          _ < st.buffer.length := by simp only [List.length_drop]; omega
  · simp [hs] at h
    have := stepBoardOpen_cont _ _ _ h
    refine ⟨this.1, ?_⟩
    rintro (h1 | h2)
    · exact absurd h1 (by simp [hs])
    · exact this.2 h2

/-- Each loop iteration that does not `break` strictly consumes input. -/
theorem stepOnce_cont_lt (st : SegmentParser) (out : Option Segment)
    (st' : SegmentParser) (h : stepOnce st = .cont out st') :
    st'.buffer.length < st.buffer.length := by
  unfold stepOnce at h
  by_cases hg : st.inSpeech = false ∧ st.inBoard = false
  · simp [hg] at h
    cases hm : findSub tagS st.buffer with
    | none => simp [hm] at h
    | some i =>
      have hbd := findSub_bound _ _ _ hm
      simp [tagS] at hbd
      simp [hm] at h
      have := stepSpeechClose_cont _ _ _ h
      calc st'.buffer.length ≤ _ := this.1
        _ < st.buffer.length := by simp only [List.length_drop]; omega
  · simp [hg] at h
    have := stepSpeechClose_cont _ _ _ h
    apply this.2
    by_cases hs : st.inSpeech = true
    · exact Or.inl hs
    · have hs' : st.inSpeech = false := by simpa using hs
      by_cases hb : st.inBoard = true
      · exact Or.inr hb
      · exact absurd ⟨hs', by simpa using hb⟩ hg

/-- The `while True` loop of `feed`, with enough structural fuel; the
fuel is shown immaterial below, so `feedLoop` is the loop. -/
def feedLoopF : Nat → SegmentParser → List Segment × SegmentParser
  | 0, st => ([], st)
  | fuel + 1, st =>
    match stepOnce st with
    | .halt st' => ([], st')
    | .cont out st' =>
      let r := feedLoopF fuel st'
      (out.toList ++ r.1, r.2)

theorem feedLoopF_fuel (f g : Nat) (st : SegmentParser)
    (hf : st.buffer.length < f) (hg : st.buffer.length < g) :
    feedLoopF f st = feedLoopF g st := by
  induction f generalizing g st with
  | zero => omega
  | succ f ih =>
    cases g with
    | zero => omega
    | succ g =>
      show feedLoopF (f + 1) st = feedLoopF (g + 1) st
      unfold feedLoopF
      cases h : stepOnce st with
      | halt st' => rfl
      | cont out st' =>
        have hlt := stepOnce_cont_lt _ _ _ h
        have := ih st' (by omega) (g := g) (by omega)
        simp [this]

/-- The loop of `SegmentParser.feed`. -/
def feedLoop (st : SegmentParser) : List Segment × SegmentParser :=
  feedLoopF (st.buffer.length + 1) st

/-- The loop equation: run one iteration, then continue — exactly the
source's `while True` body. -/
theorem feedLoop_eq (st : SegmentParser) :
    feedLoop st =
      match stepOnce st with
      | .halt st' => ([], st')
      | .cont out st' =>
        (out.toList ++ (feedLoop st').1, (feedLoop st').2) := by
  unfold feedLoop
  conv_lhs => rw [feedLoopF]
  cases h : stepOnce st with
  | halt st' => rfl
  | cont out st' =>
    have hlt := stepOnce_cont_lt _ _ _ h
    have hfu := feedLoopF_fuel st.buffer.length (st'.buffer.length + 1) st'
      (by omega) (by omega)
    simp [hfu]

/-- `SegmentParser.feed`: append the chunk to the buffer and run the
scanning loop, returning the complete segments. -/
def SegmentParser.feed (st : SegmentParser) (chunk : List Char) :
    List Segment × SegmentParser :=
  feedLoop { st with buffer := st.buffer ++ chunk }

/-- `SegmentParser.finalize` (the source also resets the state, which a
single-shot run never observes). -/
def SegmentParser.finalize (st : SegmentParser) : Option Segment :=
  if st.currentSpeech ≠ [] ∧ st.currentBoard ≠ [] then
    some ⟨st.currentSegmentId, st.currentSpeech, st.currentBoard⟩
  else if st.currentSpeech ≠ [] ∧ st.inBoard = true ∧ st.buffer ≠ [] then
    some ⟨st.currentSegmentId, st.currentSpeech, trim st.buffer⟩
  else none

/-- Feed a list of chunks in order from a given state. -/
def feedMany (st : SegmentParser) : List (List Char) → List Segment × SegmentParser
  | [] => ([], st)
  | c :: cs =>
    let r := st.feed c
    let r2 := feedMany r.2 cs
    (r.1 ++ r2.1, r2.2)

/-- All segments produced by feeding `chunks` to a fresh parser and then
calling `finalize()`. -/
def parseRun (chunks : List (List Char)) : List Segment :=
  let r := feedMany SegmentParser.init chunks
  r.1 ++ r.2.finalize.toList


/-! ## Well-formed `[S]a[/S][B]b[/B]` triples (claim C8) -/

/-- The text of one well-formed triple, prepended to `rest`. -/
def tripleText (p : List Char × List Char) (rest : List Char) : List Char :=
  tagS ++ (p.1 ++ (tagCloseS ++ (tagB ++ (p.2 ++ (tagCloseB ++ rest)))))

/-- The concatenated text of a sequence of well-formed triples. -/
def triplesText (L : List (List Char × List Char)) : List Char :=
  L.foldr tripleText []

/-- The segments the parser extracts from a sequence of triples,
numbered from `k`. -/
def expectedSegments (k : Nat) : List (List Char × List Char) → List Segment
  | [] => []
  | p :: L => ⟨k, trim p.1, trim p.2⟩ :: expectedSegments (k + 1) L

/-- A triple's contents are benign when they contain no `[` (so they
cannot contain or start a tag) and the speech does not strip to empty
(the source skips the board scan for empty pending speech). -/
def benign (p : List Char × List Char) : Prop :=
  (∀ c ∈ p.1, c ≠ '[') ∧ (∀ c ∈ p.2, c ≠ '[') ∧ trim p.1 ≠ []

instance (p : List Char × List Char) : Decidable (benign p) := by
  unfold benign
  infer_instance

theorem findSub_tagCloseS (run s : List Char) (h : ∀ c ∈ run, c ≠ '[') :
    findSub tagCloseS (run ++ (tagCloseS ++ s)) = some run.length := by
  have := findSub_after ['/', 'S', ']'] s run h
  rw [List.append_assoc] at this
  exact this

theorem findSub_tagCloseB (run s : List Char) (h : ∀ c ∈ run, c ≠ '[') :
    findSub tagCloseB (run ++ (tagCloseB ++ s)) = some run.length := by
  have := findSub_after ['/', 'B', ']'] s run h
  rw [List.append_assoc] at this
  exact this

theorem drop_run_tag (run tag s : List Char) :
    (run ++ (tag ++ s)).drop (run.length + tag.length) = s := by
  rw [← List.append_assoc, ← List.length_append]
  exact List.drop_left _ _

theorem take_run (run s : List Char) : (run ++ s).take run.length = run :=
  List.take_left _ _

/-- One loop iteration consumes exactly one leading well-formed triple
and emits its segment. -/
theorem stepOnce_triple (a b rest : List Char) (k : Nat)
    (ha : ∀ c ∈ a, c ≠ '[') (hb : ∀ c ∈ b, c ≠ '[') (hne : trim a ≠ []) :
    stepOnce ⟨tripleText (a, b) rest, k, [], [], false, false⟩ =
      .cont (some ⟨k, trim a, trim b⟩) ⟨rest, k + 1, [], [], false, false⟩ := by
  have e1 : stepOnce ⟨tripleText (a, b) rest, k, [], [], false, false⟩ =
      stepSpeechClose
        ⟨a ++ (tagCloseS ++ (tagB ++ (b ++ (tagCloseB ++ rest)))),
          k, [], [], true, false⟩ := by
    rw [stepOnce]
    simp only [tripleText]
    rw [findSub_self]
    simp [tagS]
  have e2 : stepSpeechClose
        ⟨a ++ (tagCloseS ++ (tagB ++ (b ++ (tagCloseB ++ rest)))),
          k, [], [], true, false⟩ =
      stepBoardOpen
        ⟨tagB ++ (b ++ (tagCloseB ++ rest)), k, trim a, [], false, false⟩ := by
    rw [stepSpeechClose]
    simp only [if_pos rfl]
    rw [findSub_tagCloseS a _ ha]
    have hdrop := drop_run_tag a tagCloseS (tagB ++ (b ++ (tagCloseB ++ rest)))
    simp only [tagCloseS] at hdrop
    simp [take_run, hdrop, tagCloseS]
  have e3 : stepBoardOpen
        ⟨tagB ++ (b ++ (tagCloseB ++ rest)), k, trim a, [], false, false⟩ =
      stepBoardClose
        ⟨b ++ (tagCloseB ++ rest), k, trim a, [], false, true⟩ := by
    rw [stepBoardOpen]
    rw [if_pos ⟨rfl, rfl, hne⟩, findSub_self]
    simp [tagB]
  have e4 : stepBoardClose
        ⟨b ++ (tagCloseB ++ rest), k, trim a, [], false, true⟩ =
      .cont (some ⟨k, trim a, trim b⟩) ⟨rest, k + 1, [], [], false, false⟩ := by
    rw [stepBoardClose]
    simp only [if_pos rfl]
    rw [findSub_tagCloseB b _ hb]
    have hdrop := drop_run_tag b tagCloseB rest
    simp only [tagCloseB] at hdrop
    simp [take_run, hdrop, tagCloseB]
  rw [e1, e2, e3, e4]

/-- The loop maps a sequence of benign triples to their segments. -/
theorem feedLoop_triples (L : List (List Char × List Char)) (k : Nat)
    (h : ∀ p ∈ L, benign p) :
    feedLoop ⟨triplesText L, k, [], [], false, false⟩ =
      (expectedSegments k L, ⟨[], k + L.length, [], [], false, false⟩) := by
  induction L generalizing k with
  | nil =>
    rw [feedLoop_eq]
    have hstep : stepOnce ⟨triplesText [], k, [], [], false, false⟩ =
        .halt ⟨[], k, [], [], false, false⟩ := by
      rw [stepOnce]
      rw [if_pos ⟨rfl, rfl⟩]
      simp [triplesText, findSub_nil tagS (by simp [tagS])]
    simp [hstep, expectedSegments]
  | cons p L ih =>
    obtain ⟨ha, hb, hne⟩ := h p (by simp)
    have hL : ∀ q ∈ L, benign q := fun q hq => h q (by simp [hq])
    rw [feedLoop_eq]
    have hstep := stepOnce_triple p.1 p.2 (triplesText L) k ha hb hne
    have htxt : triplesText (p :: L) = tripleText (p.1, p.2) (triplesText L) := by
      simp [triplesText]
    rw [htxt, hstep]
    simp only [ih (k + 1) hL, expectedSegments]
    simp
    omega

/-- Claim C8, amended part: feeding a whole benign triple sequence as a
single chunk yields exactly its segments, ids contiguous from `k = 0`,
and `finalize()` adds nothing. -/
theorem claim_C8_amended (L : List (List Char × List Char))
    (h : ∀ p ∈ L, benign p) :
    parseRun [triplesText L] = expectedSegments 0 L := by
  have hfeed := feedLoop_triples L 0 h
  unfold parseRun feedMany SegmentParser.feed
  simp only [SegmentParser.init, List.nil_append]
  rw [hfeed]
  simp [feedMany, SegmentParser.finalize]

/-- Witness for C8's amended theorem at the one-triple input
`[S]a[/S][B]b[/B]`. -/
theorem claim_C8_amended_witness :
    parseRun [triplesText [("a".data, "b".data)]] =
      expectedSegments 0 [("a".data, "b".data)] :=
  claim_C8_amended [("a".data, "b".data)] (by decide)

/-- Claim C8 counterexample: the well-formed two-triple stream
`[S]a[/S][B]b[/B][S]c[/S][B]d[/B]` parsed as one chunk yields both
segments, but split into the chunks `[S]a[/S]` and
`[B]b[/B][S]c[/S][B]d[/B]` (same concatenation) the first segment is
lost, so chunking invariance fails. -/
theorem claim_C8_counterexample :
    "[S]a[/S]".data ++ "[B]b[/B][S]c[/S][B]d[/B]".data =
        triplesText [("a".data, "b".data), ("c".data, "d".data)] ∧
      parseRun [triplesText [("a".data, "b".data), ("c".data, "d".data)]] ≠
        parseRun ["[S]a[/S]".data, "[B]b[/B][S]c[/S][B]d[/B]".data] := by
  constructor
  · decide
  · decide

/-- Claim C1 counterexample: feeding the single chunk
`garbage [S] hi [/S] more garbage` and finalizing does NOT produce the
segment `(0, "hi", "")` — the parser emits nothing at all, because
`feed` emits only on a matched `[/B]` and `finalize` drops a pending
speech whose board was never opened. -/
theorem claim_C1_counterexample :
    parseRun ["garbage [S] hi [/S] more garbage".data] ≠
      [⟨0, "hi".data, []⟩] := by
  decide

/-- Claim C1, amended: pending speech followed by no `[B]` board is
never emitted — both of the spec's probe inputs produce zero segments. -/
theorem claim_C1_amended :
    parseRun ["garbage [S] hi [/S] more garbage".data] = [] ∧
      parseRun ["[S]a[/S][S]b[/S]".data] = [] := by
  constructor
  · decide
  · decide


/-! ## ASR worker (`app/websocket/handler.py`, `ensure_asr_session.asr_worker`)

The worker iterates the transcription results, relays non-final texts
as `asr_partial` envelopes, stops at the first final, and when the
result stream ends without a final it promotes `last_partial`; then it
either enters the LLM turn or falls back to LISTENING.  It keeps no
timestamps: its behaviour is independent of the `atMs` field below. -/

/-- One observation of `transcribe_stream` (`TranscriptionResult`),
stamped with its arrival time to let stability talk be formalized. -/
structure AsrResult where
  atMs : Nat
  text : List Char
  isFinal : Bool
deriving DecidableEq, Repr

/-- The observable actions of the worker.  `asrInterim` is the
`asr_partial` envelope; `eosSentinel` is a `queue.put(None)` into the
frame channel, which the claim predicts and the code never performs. -/
inductive AsrOut where
  | asrInterim (text : List Char)
  | asrFinal (text : List Char)
  | eosSentinel
  | toListening
  | toLlmTurn (text : List Char)
deriving DecidableEq, Repr

/-- The `async for` over ASR results: returns the emitted envelopes,
the `final_text`, and the `last_partial` tracker. -/
def asrLoop : List AsrResult → List Char → List AsrOut × List Char × List Char
  | [], lastP => ([], [], lastP)
  | r :: rest, lastP =>
    let t := trim r.text
    if t = [] then asrLoop rest lastP
    else if r.isFinal then ([.asrFinal t], t, lastP)
    else
      let q := asrLoop rest t
      (.asrInterim t :: q.1, q.2.1, q.2.2)

/-- The whole `asr_worker` body; `interrupt` is what `check_interrupt`
returns after the stream has ended. -/
def asrWorker (results : List AsrResult) (interrupt : Bool) : List AsrOut :=
  let r := asrLoop results []
  let promoted :=
    if r.2.1 = [] ∧ r.2.2 ≠ [] then (r.1 ++ [.asrFinal r.2.2], r.2.2)
    else (r.1, r.2.1)
  if promoted.2 ≠ [] ∧ interrupt = false then promoted.1 ++ [.toLlmTurn promoted.2]
  else promoted.1 ++ [.toListening]

/-- A stream on which claim C4 predicts stability finalization: the
non-final transcript 你好 is unchanged from 0 ms to 1600 ms (≥ 1.5 s)
while the stream stays open. -/
def c4Input : List AsrResult :=
  [⟨0, "你好".data, false⟩, ⟨1600, "你好".data, false⟩, ⟨1700, "嗯".data, false⟩]

/-- Claim C4 counterexample: on `c4Input` the claim requires an
`asr_final` for 你好 (the stable partial) and an end-of-stream sentinel
enqueued at the moment of stability; the worker instead keeps relaying
partials, promotes the LAST partial 嗯 when the stream ends, and never
enqueues a sentinel. -/
theorem claim_C4_counterexample :
    asrWorker c4Input false =
      [.asrInterim "你好".data, .asrInterim "你好".data, .asrInterim "嗯".data,
        .asrFinal "嗯".data, .toLlmTurn "嗯".data] ∧
      AsrOut.asrFinal "你好".data ∉ asrWorker c4Input false ∧
      AsrOut.eosSentinel ∉ asrWorker c4Input false := by
  refine ⟨by decide, by decide, by decide⟩

/-- Non-empty trimmed texts among the results. -/
def interimTexts (results : List AsrResult) : List (List Char) :=
  (results.map fun r => trim r.text).filter fun t => t ≠ []

/-- The last element of a list, with default `d` — the value
`last_partial` holds after the loop. -/
def lastTextD (ps : List (List Char)) (d : List Char) : List Char :=
  match ps with
  | [] => d
  | t :: rest => lastTextD rest t

theorem lastTextD_mem (ps : List (List Char)) (d : List Char)
    (h : ps ≠ []) : lastTextD ps d ∈ ps := by
  induction ps generalizing d with
  | nil => exact absurd rfl h
  | cons x t ih =>
    cases t with
    | nil => simp [lastTextD]
    | cons y u =>
      have := ih x (by simp)
      exact List.mem_cons_of_mem x this

theorem asrLoop_noFinal (results : List AsrResult) (lastP : List Char)
    (h : ∀ r ∈ results, r.isFinal = false) :
    asrLoop results lastP =
      ((interimTexts results).map AsrOut.asrInterim, [],
        lastTextD (interimTexts results) lastP) := by
  induction results generalizing lastP with
  | nil => simp [asrLoop, interimTexts, lastTextD]
  | cons r rest ih =>
    have hr : r.isFinal = false := h r (by simp)
    have hrest : ∀ x ∈ rest, x.isFinal = false := fun x hx => h x (by simp [hx])
    by_cases ht : trim r.text = []
    · have hit : interimTexts (r :: rest) = interimTexts rest := by
        simp [interimTexts, ht]
      rw [show asrLoop (r :: rest) lastP = asrLoop rest lastP by
        simp [asrLoop, ht], hit]
      exact ih lastP hrest
    · have hit : interimTexts (r :: rest) = trim r.text :: interimTexts rest := by
        simp [interimTexts, ht]
      rw [hit]
      simp [asrLoop, ht, hr, ih (trim r.text) hrest, lastTextD]

theorem interimTexts_ne_nil (results : List AsrResult) (t : List Char)
    (ht : t ∈ interimTexts results) : t ≠ [] := by
  simp [interimTexts] at ht
  exact ht.2

/-- Claim C4, amended: the worker performs no time-based finalization
at all — on a stream of non-final results it relays every non-empty
trimmed text as `asr_partial` and, only at stream end, promotes the
last one to `asr_final` and proceeds to the LLM turn (LISTENING when
there was no text). -/
theorem claim_C4_amended (results : List AsrResult)
    (h : ∀ r ∈ results, r.isFinal = false) :
    asrWorker results false =
      if interimTexts results = [] then [AsrOut.toListening]
      else
        (interimTexts results).map AsrOut.asrInterim ++
          [AsrOut.asrFinal (lastTextD (interimTexts results) []),
            AsrOut.toLlmTurn (lastTextD (interimTexts results) [])] := by
  unfold asrWorker
  rw [asrLoop_noFinal results [] h]
  by_cases hps : interimTexts results = []
  · simp [hps, lastTextD]
  · have hlast : lastTextD (interimTexts results) [] ≠ [] :=
      interimTexts_ne_nil results _ (lastTextD_mem _ _ hps)
    simp [hps, hlast]

/-- Witness: a single non-empty partial is promoted at stream end. -/
theorem claim_C4_amended_witness :
    asrWorker [⟨0, "hi".data, false⟩] false =
      [.asrInterim "hi".data, .asrFinal "hi".data, .toLlmTurn "hi".data] := by
  rw [claim_C4_amended [⟨0, "hi".data, false⟩] (by decide)]
  decide

/-! ## Server envelopes (`app/websocket/protocol.py` `ServerMessage`,
`app/websocket/manager.py` `ConnectionManager.send_message`)

`ServerMessage` is a pydantic model with exactly the fields `type`,
`data`, `timestamp`; `send_message` sends `message.model_dump()`.  The
handler's docstring and its `WsEnvelope` import expect the v2 envelope
`{type, conv_id, msg_id, ts_ms, payload}`, which this module does not
produce. -/

/-- A primitive JSON value appearing in a message's `data` dict. -/
inductive JPrim where
  | s (v : String)
  | i (v : Int)
  | b (v : Bool)
  | nullv
deriving DecidableEq, Repr

/-- The pydantic model: its declared fields. -/
structure ServerMessage where
  type : String
  data : Option (List (String × JPrim))
  timestamp : String
deriving DecidableEq, Repr

def optStr : Option String → JPrim
  | none => .nullv
  | some v => .s v

def optInt : Option Int → JPrim
  | none => .nullv
  | some v => .i v

def ServerMessage.audio (audioData : String) (segmentId : Int)
    (isFinal : Bool) (seq : Option Int) (format : Option String)
    (sampleRate channels bitsPerSample : Option Int) (ts : String) :
    ServerMessage :=
  ⟨"audio",
    some ([("audio", .s audioData), ("segment_id", .i segmentId),
      ("is_final", .b isFinal), ("format", optStr format),
      ("sample_rate", optInt sampleRate), ("channels", optInt channels),
      ("bits_per_sample", optInt bitsPerSample)] ++
      (match seq with | some q => [("seq", JPrim.i q)] | none => [])), ts⟩

def ServerMessage.audioEnd (segmentId totalChunks : Int) (ts : String) :
    ServerMessage :=
  ⟨"audio_end",
    some [("segment_id", .i segmentId), ("total_chunks", .i totalChunks)], ts⟩

def ServerMessage.transcript (content : String) (isFinal : Bool)
    (ts : String) : ServerMessage :=
  ⟨"transcript", some [("text", .s content), ("is_final", .b isFinal)], ts⟩

def ServerMessage.transcriptDelta (segmentId : Int) (delta : String)
    (offset : Int) (ts : String) : ServerMessage :=
  ⟨"transcript_delta",
    some [("segment_id", .i segmentId), ("delta", .s delta),
      ("offset", .i offset)], ts⟩

def ServerMessage.segment (segmentId : Int) (speech board : String)
    (ts : String) : ServerMessage :=
  ⟨"segment",
    some [("segment_id", .i segmentId), ("speech", .s speech),
      ("board", .s board)], ts⟩

def ServerMessage.segmentStart (segmentId : Int) (speech : String)
    (ts : String) : ServerMessage :=
  ⟨"segment_start",
    some [("segment_id", .i segmentId), ("speech", .s speech)], ts⟩

def ServerMessage.board (segmentId : Int) (board : String) (ts : String) :
    ServerMessage :=
  ⟨"board", some [("segment_id", .i segmentId), ("board", .s board)], ts⟩

def ServerMessage.state (state : String) (ts : String) : ServerMessage :=
  ⟨"state", some [("state", .s state)], ts⟩

def ServerMessage.done (totalSegments : Int) (ts : String) : ServerMessage :=
  ⟨"done", some [("total_segments", .i totalSegments)], ts⟩

def ServerMessage.error (code : Int) (message : String) (ts : String) :
    ServerMessage :=
  ⟨"error", some [("code", .i code), ("message", .s message)], ts⟩

def ServerMessage.pong (ts : String) : ServerMessage :=
  ⟨"pong", some [], ts⟩

/-- A value in the serialized top-level object. -/
inductive DumpVal where
  | prim (p : JPrim)
  | dict (d : List (String × JPrim))
deriving DecidableEq, Repr

/-- `message.model_dump()`: the JSON object `send_message` writes to
the socket. -/
def ServerMessage.modelDump (m : ServerMessage) : List (String × DumpVal) :=
  [("type", .prim (.s m.type)),
   ("data", match m.data with | none => .prim .nullv | some d => .dict d),
   ("timestamp", .prim (.s m.timestamp))]

/-- Claim C2: every message actually serialized over the connection has
top-level fields `type`, `data`, `timestamp` — not the envelope
`{type, conv_id, msg_id, ts_ms, payload}` the claim asserts; evaluated
concretely on the `pong` constructor. -/
theorem claim_C2_theorem :
    (∀ m : ServerMessage,
      m.modelDump.map Prod.fst = ["type", "data", "timestamp"] ∧
      "conv_id" ∉ m.modelDump.map Prod.fst ∧
      "msg_id" ∉ m.modelDump.map Prod.fst ∧
      "ts_ms" ∉ m.modelDump.map Prod.fst ∧
      "payload" ∉ m.modelDump.map Prod.fst ∧
      m.modelDump.map Prod.fst ≠ ["type", "conv_id", "msg_id", "ts_ms", "payload"]) ∧
    (ServerMessage.pong "t0").modelDump =
      [("type", .prim (.s "pong")), ("data", .dict []),
        ("timestamp", .prim (.s "t0"))] := by
  constructor
  · intro m
    have hkeys : m.modelDump.map Prod.fst = ["type", "data", "timestamp"] := rfl
    refine ⟨hkeys, ?_, ?_, ?_, ?_, ?_⟩ <;> rw [hkeys] <;> decide
  · rfl

/-! ## TTS streaming (`app/services/tts.py`, `TTSService.synthesize_stream`)

The request asks the provider for `"format": "mp3"` audio and the
receive loop yields the raw `AudioOnlyServer` payload bytes directly:
there are no `sentence_start` / `audio` / `finished` events, and no
terminal marker is emitted — the generator just ends.  (The handler even
calls a nonexistent `synthesize_stream_events` for the evented form.) -/

inductive TtsMsgType where
  | fullServerResponse
  | audioOnlyServer
  | errorResponse
deriving DecidableEq, Repr

/-- A parsed provider message (`TTSMessage`), restricted to the fields
the receive loop reads.  `payload = []` models an absent payload. -/
structure TtsMsg where
  mtype : TtsMsgType
  event : Int
  payload : List Nat
deriving DecidableEq, Repr

/-- `EventType.SessionFinished`. -/
def sessionFinishedEvent : Int := 6

/-- The audio format requested in `req_params.audio_params`. -/
def ttsRequestedAudioFormat : String := "mp3"

/-- The receive loop of `synthesize_stream` (interrupt callback absent
or false): the byte chunks yielded to the caller, and whether an
`ErrorResponse` raised.  An exhausted stream just breaks. -/
def synthStream : List TtsMsg → List (List Nat) × Bool
  | [] => ([], false)
  | m :: rest =>
    match m.mtype with
    | .fullServerResponse =>
      if m.event = sessionFinishedEvent then ([], false) else synthStream rest
    | .audioOnlyServer =>
      if m.payload ≠ [] then
        let r := synthStream rest
        (m.payload :: r.1, r.2)
      else synthStream rest
    | .errorResponse => ([], true)

/-- Claim C3: for a session delivering two audio payloads and a
session-finished response, the caller receives exactly the two raw byte
chunks — no `sentence_start`, no terminal `finished` event; chunks are
never empty (the one clause of the claim the code does satisfy), and
the audio requested from the provider is MP3, not PCM. -/
theorem claim_C3_theorem :
    synthStream
        [⟨.audioOnlyServer, 0, [1, 2]⟩, ⟨.audioOnlyServer, 0, [3]⟩,
          ⟨.fullServerResponse, 6, []⟩] = ([[1, 2], [3]], false) ∧
      (∀ msgs, [] ∉ (synthStream msgs).1) ∧
      ttsRequestedAudioFormat ≠ "pcm_s16le" := by
  refine ⟨by decide, ?_, by decide⟩
  intro msgs
  induction msgs with
  | nil => simp [synthStream]
  | cons m rest ih =>
    cases hm : m.mtype with
    | fullServerResponse =>
      by_cases he : m.event = sessionFinishedEvent
      · simp [synthStream, hm, he]
      · simp [synthStream, hm, he, ih]
    | audioOnlyServer =>
      by_cases hp : m.payload ≠ []
      · simp [synthStream, hm, hp, ih]
      · simp [synthStream, hm, hp, ih]
    | errorResponse => simp [synthStream, hm]



/-! ## Session teardown (`app/api/v1/conversation.py`,
`finalize_conversation`)

After persisting the rollup, the source runs exactly these Redis
deletions: `conv:session:{id}`, `conv:messages:{id}`, `conv:context:{id}`,
`conv:vars:{id}`, `conv:prompt:{id}`, an `srem` on `conv:active_set`,
and `user:active_conv:{uid}`.  It does NOT delete `conv:interrupt:{id}`
(written by `handle_interrupt` with a 10 s TTL) nor
`conv:llm:resp_id:{id}` (written by `AIAgent._set_previous_response_id`
with a 7200 s TTL). -/

def sessionKey (cid : List Char) : List Char := "conv:session:".data ++ cid
def messagesKey (cid : List Char) : List Char := "conv:messages:".data ++ cid
def contextKey (cid : List Char) : List Char := "conv:context:".data ++ cid
def varsKey (cid : List Char) : List Char := "conv:vars:".data ++ cid
def promptKey (cid : List Char) : List Char := "conv:prompt:".data ++ cid
def interruptKey (cid : List Char) : List Char := "conv:interrupt:".data ++ cid
def respIdKey (cid : List Char) : List Char := "conv:llm:resp_id:".data ++ cid
def userActiveKey (uid : List Char) : List Char := "user:active_conv:".data ++ uid

/-- `redis.delete(k)` on a store viewed as its set of present keys. -/
def redisDelete (k : List Char) (st : List (List Char)) : List (List Char) :=
  st.filter fun x => x ≠ k

/-- The deletion sequence at the end of `finalize_conversation`
(the `srem` on the id set is the analogous removal and is covered by
`userActiveKey`-style reasoning; the DB writes are out of scope). -/
def finalizeCleanup (cid uid : List Char) (st : List (List Char)) :
    List (List Char) :=
  redisDelete (userActiveKey uid)
    (redisDelete (promptKey cid)
      (redisDelete (varsKey cid)
        (redisDelete (contextKey cid)
          (redisDelete (messagesKey cid)
            (redisDelete (sessionKey cid) st)))))

theorem mem_finalizeCleanup (cid uid x : List Char)
    (st : List (List Char)) :
    x ∈ finalizeCleanup cid uid st ↔
      x ∈ st ∧ x ≠ sessionKey cid ∧ x ≠ messagesKey cid ∧
        x ≠ contextKey cid ∧ x ≠ varsKey cid ∧ x ≠ promptKey cid ∧
        x ≠ userActiveKey uid := by
  simp [finalizeCleanup, redisDelete, List.mem_filter]
  tauto

theorem key_ne_of_length {p q : List Char} (h : p.length ≠ q.length)
    (s : List Char) : p ++ s ≠ q ++ s := by
  intro he
  have := congrArg List.length he
  simp at this
  omega

theorem interruptKey_ne_userActiveKey (cid uid : List Char) :
    interruptKey cid ≠ userActiveKey uid := by
  intro he
  have h1 : interruptKey cid = 'c' :: ("onv:interrupt:".data ++ cid) := rfl
  have h2 : userActiveKey uid = 'u' :: ("ser:active_conv:".data ++ uid) := rfl
  rw [h1, h2] at he
  simp at he

theorem respIdKey_ne_userActiveKey (cid uid : List Char) :
    respIdKey cid ≠ userActiveKey uid := by
  intro he
  have h1 : respIdKey cid = 'c' :: ("onv:llm:resp_id:".data ++ cid) := rfl
  have h2 : userActiveKey uid = 'u' :: ("ser:active_conv:".data ++ uid) := rfl
  rw [h1, h2] at he
  simp at he

/-- Claim C5 counterexample: start from a store holding every `conv:*`
key of conversation 7 (as the live pipeline writes them); after
`finalize_conversation`'s cleanup the interrupt flag and the LLM
resume-cursor key are still present, so `conv:*` keys for the
conversation DO remain. -/
theorem claim_C5_counterexample :
    interruptKey "7".data ∈
        finalizeCleanup "7".data "42".data
          [sessionKey "7".data, messagesKey "7".data, varsKey "7".data,
            promptKey "7".data, interruptKey "7".data, respIdKey "7".data] ∧
      respIdKey "7".data ∈
        finalizeCleanup "7".data "42".data
          [sessionKey "7".data, messagesKey "7".data, varsKey "7".data,
            promptKey "7".data, interruptKey "7".data, respIdKey "7".data] := by
  refine ⟨by decide, by decide⟩

/-- Claim C5, amended: the cleanup removes exactly the session hash,
message list, context, context variables, cached prompt and the user's
active-conversation pointer; the interrupt flag and the LLM
resume-cursor keys survive it (they are left to TTL expiry). -/
theorem claim_C5_amended (cid uid : List Char) (st : List (List Char)) :
    sessionKey cid ∉ finalizeCleanup cid uid st ∧
      messagesKey cid ∉ finalizeCleanup cid uid st ∧
      contextKey cid ∉ finalizeCleanup cid uid st ∧
      varsKey cid ∉ finalizeCleanup cid uid st ∧
      promptKey cid ∉ finalizeCleanup cid uid st ∧
      userActiveKey uid ∉ finalizeCleanup cid uid st ∧
      (interruptKey cid ∈ finalizeCleanup cid uid st ↔ interruptKey cid ∈ st) ∧
      (respIdKey cid ∈ finalizeCleanup cid uid st ↔ respIdKey cid ∈ st) := by
  refine ⟨?_, ?_, ?_, ?_, ?_, ?_, ?_, ?_⟩
  · rw [mem_finalizeCleanup]
    rintro ⟨-, hne, -⟩
    exact hne rfl
  · rw [mem_finalizeCleanup]
    rintro ⟨-, -, hne, -⟩
    exact hne rfl
  · rw [mem_finalizeCleanup]
    rintro ⟨-, -, -, hne, -⟩
    exact hne rfl
  · rw [mem_finalizeCleanup]
    rintro ⟨-, -, -, -, hne, -⟩
    exact hne rfl
  · rw [mem_finalizeCleanup]
    rintro ⟨-, -, -, -, -, hne, -⟩
    exact hne rfl
  · rw [mem_finalizeCleanup]
    rintro ⟨-, -, -, -, -, -, hne⟩
    exact hne rfl
  · rw [mem_finalizeCleanup]
    constructor
    · exact fun h => h.1
    · intro hmem
      refine ⟨hmem, ?_, ?_, ?_, ?_, ?_, ?_⟩
      · exact key_ne_of_length (by decide) cid
      · exact key_ne_of_length (by decide) cid
      · exact key_ne_of_length (by decide) cid
      · exact key_ne_of_length (by decide) cid
      · exact key_ne_of_length (by decide) cid
      · exact interruptKey_ne_userActiveKey cid uid
  · rw [mem_finalizeCleanup]
    constructor
    · exact fun h => h.1
    · intro hmem
      refine ⟨hmem, ?_, ?_, ?_, ?_, ?_, ?_⟩
      · exact key_ne_of_length (by decide) cid
      · exact key_ne_of_length (by decide) cid
      · exact key_ne_of_length (by decide) cid
      · exact key_ne_of_length (by decide) cid
      · exact key_ne_of_length (by decide) cid
      · exact respIdKey_ne_userActiveKey cid uid

/-! ## Interrupted turn (`app/services/agent.py`,
`AIAgent.process_text_with_segments`)

The user message is stored before the LLM call.  While chunks stream
in, the agent feeds them to a `SegmentParser` and, before yielding each
COMPLETE segment, checks the interrupt flag and returns (storing no
assistant message) when it is set.  But when the interrupt is observed
inside `chat_stream` (its own `interrupt_check` between SSE lines), the
chunk loop simply ends, control reaches `parser.finalize()` and then
`store_message(conversation_id, "assistant", full_response)` runs
whenever `full_response` is non-empty — appending a PARTIAL assistant
record for the interrupted turn.

`processTurn` models the turn in which the interrupt flag is raised
after the first `cutoff` chunks were yielded and processed: checks made
while processing those chunks see the flag unset, the LLM stream stops
before chunk `cutoff`, and checks made after the loop see it set
(`cutoff ≤ chunks.length`, i.e. the stream was actually cut short). -/

structure LlmChunk where
  content : List Char
  isFinal : Bool
deriving DecidableEq, Repr

structure TurnOutcome where
  emitted : List Segment
  storedUser : List Char
  storedAssistant : Option (List Char)
deriving DecidableEq, Repr

/-- The chunk loop: accumulate `full_response`, feed the parser, and
collect the segments it completes (`break` after an `is_final` chunk). -/
def turnLoop : List LlmChunk → SegmentParser → List Char → List Segment →
    SegmentParser × List Char × List Segment
  | [], st, full, segs => (st, full, segs)
  | c :: rest, st, full, segs =>
    if c.content ≠ [] then
      let r := st.feed c.content
      if c.isFinal then (r.2, full ++ c.content, segs ++ r.1)
      else turnLoop rest r.2 (full ++ c.content) (segs ++ r.1)
    else
      if c.isFinal then (st, full, segs)
      else turnLoop rest st full segs

/-- One run of `process_text_with_segments` on a turn interrupted after
`cutoff` chunks (TTS attachment omitted; it does not touch the log). -/
def processTurn (userText : List Char) (chunks : List LlmChunk)
    (cutoff : Nat) : TurnOutcome :=
  let wasCut := decide (cutoff ≤ chunks.length)
  let r := turnLoop (chunks.take cutoff) SegmentParser.init [] []
  let fin := r.1.finalize
  let emitted := r.2.2 ++ (if wasCut then [] else fin.toList)
  let storedAssistant := if r.2.1 ≠ [] then some r.2.1 else none
  ⟨emitted, userText, storedAssistant⟩

/-- Claim C6 failing input, evaluated: the LLM has streamed the partial
chunk `[S]hello wor` when the interrupt arrives (no segment is complete
yet, so the agent's own per-segment interrupt return never fires); the
turn is abandoned with nothing emitted, YET the partial assistant
message `[S]hello wor` is appended to the conversation log. -/
theorem claim_C6_theorem :
    processTurn "hi".data
        [⟨"[S]hello wor".data, false⟩, ⟨"ld[/S][B]x[/B]".data, false⟩] 1 =
      ⟨[], "hi".data, some "[S]hello wor".data⟩ ∧
      (processTurn "hi".data
          [⟨"[S]hello wor".data, false⟩, ⟨"ld[/S][B]x[/B]".data, false⟩]
          1).storedAssistant ≠ none := by
  refine ⟨by decide, by decide⟩



/-! ## VAD and barge-in admission (`app/websocket/handler.py`,
`handle_user_audio_chunk`)

Per decoded frame the source updates the adaptive noise floor, decides
whether the frame falls in the playback-echo window (state SPEAKING or
a TTS chunk sent less than `PLAYBACK_ECHO_WINDOW_MS` ago), runs the
barge-in counter, and admits the frame to ASR iff it is outside the
window or barge-in triggered; admitted frames then drive endpointing.
Decibel values and durations are modelled as rationals. -/

structure VadState where
  inSpeech : Bool
  silenceMs : ℚ
  noiseFloorDb : ℚ
  bargeInFrames : Nat
deriving DecidableEq, Repr

/-- The per-frame ambient inputs of `handle_user_audio_chunk`. -/
structure FrameInput where
  rmsDb : ℚ
  frameMs : ℚ
  speaking : Bool
  nowMs : ℚ
  lastTtsMs : Option ℚ
deriving DecidableEq, Repr

def SPEECH_DB_ABOVE_NOISE : ℚ := 10
def BARGE_IN_DB_ABOVE_NOISE : ℚ := 15
def BARGE_IN_MIN_MS : ℚ := 200
def PLAYBACK_ECHO_WINDOW_MS : ℚ := 1200
def END_SILENCE_MS : ℚ := 1500

/-- The single-pole IIR noise-floor update (fast toward quiet frames). -/
def noiseFloorAfter (v : VadState) (f : FrameInput) : ℚ :=
  if f.rmsDb < v.noiseFloorDb + 3 then
    0.98 * v.noiseFloorDb + 0.02 * f.rmsDb
  else
    0.995 * v.noiseFloorDb + 0.005 * f.rmsDb

/-- `recent_tts`: the last TTS chunk was sent within the echo window. -/
def recentTts (f : FrameInput) : Bool :=
  match f.lastTtsMs with
  | none => false
  | some t => decide (f.nowMs - t < PLAYBACK_ECHO_WINDOW_MS)

structure FrameResult where
  vad : VadState
  fedAsr : Bool
  bargeTriggered : Bool
  eos : Bool
deriving DecidableEq, Repr

/-- One frame through the VAD / barge-in / endpointing logic. -/
def frameStep (v : VadState) (f : FrameInput) : FrameResult :=
  let nf := noiseFloorAfter v f
  let speakingRisk := f.speaking || recentTts f
  let frames : Nat :=
    if speakingRisk then
      if f.rmsDb > nf + BARGE_IN_DB_ABOVE_NOISE then v.bargeInFrames + 1 else 0
    else 0
  let bargeTriggered :=
    if speakingRisk then decide ((frames : ℚ) * f.frameMs ≥ BARGE_IN_MIN_MS)
    else false
  let fedAsr := !speakingRisk || bargeTriggered
  let next :=
    if fedAsr then
      if f.rmsDb > nf + SPEECH_DB_ABOVE_NOISE then (true, (0 : ℚ), false)
      else if v.inSpeech then
        if v.silenceMs + f.frameMs ≥ END_SILENCE_MS then (false, (0 : ℚ), true)
        else (true, v.silenceMs + f.frameMs, false)
      else (v.inSpeech, v.silenceMs, false)
    else (v.inSpeech, v.silenceMs, false)
  ⟨⟨next.1, next.2.1, nf, frames⟩, fedAsr, bargeTriggered, next.2.2⟩

/-- Claim C7: in the echo window a frame reaches ASR iff barge-in has
fired, barge-in fires exactly when the consecutive above-threshold
streak times the frame duration reaches `BARGE_IN_MIN_MS`, a
below-threshold frame resets the streak (and is dropped), and outside
the window every frame is admitted. -/
theorem claim_C7_theorem (v : VadState) (f : FrameInput) :
    ((¬ (f.speaking = true ∨ recentTts f = true)) →
        (frameStep v f).fedAsr = true ∧ (frameStep v f).vad.bargeInFrames = 0) ∧
      ((f.speaking = true ∨ recentTts f = true) →
        ((frameStep v f).fedAsr = true ↔
          ((frameStep v f).vad.bargeInFrames : ℚ) * f.frameMs ≥ BARGE_IN_MIN_MS)) ∧
      ((f.speaking = true ∨ recentTts f = true) →
        f.rmsDb > noiseFloorAfter v f + BARGE_IN_DB_ABOVE_NOISE →
        (frameStep v f).vad.bargeInFrames = v.bargeInFrames + 1) ∧
      ((f.speaking = true ∨ recentTts f = true) →
        ¬ (f.rmsDb > noiseFloorAfter v f + BARGE_IN_DB_ABOVE_NOISE) →
        (frameStep v f).vad.bargeInFrames = 0 ∧ (frameStep v f).fedAsr = false) ∧
      ((frameStep v f).fedAsr = true ↔
        (¬ (f.speaking = true ∨ recentTts f = true) ∨
          (frameStep v f).bargeTriggered = true)) := by
  have hrisk : (f.speaking || recentTts f) = true ↔
      (f.speaking = true ∨ recentTts f = true) := by
    simp
  by_cases hs : f.speaking = true ∨ recentTts f = true
  · have hb : (f.speaking || recentTts f) = true := hrisk.mpr hs
    by_cases hth : f.rmsDb > noiseFloorAfter v f + BARGE_IN_DB_ABOVE_NOISE
    · refine ⟨fun hc => absurd hs hc, ?_, ?_, ?_, ?_⟩
      · intro _
        simp [frameStep, hb, hth]
      · intro _ _
        simp [frameStep, hb, hth]
      · intro _ hc
        exact absurd hth hc
      · simp [frameStep, hb, hth, hs]
    · refine ⟨fun hc => absurd hs hc, ?_, ?_, ?_, ?_⟩
      · intro _
        simp [frameStep, hb, hth, BARGE_IN_MIN_MS]
      · intro _ hc
        exact absurd hc hth
      · intro _ _
        simp [frameStep, hb, hth, BARGE_IN_MIN_MS]
      · simp [frameStep, hb, hth, hs, BARGE_IN_MIN_MS]
  · have hb : (f.speaking || recentTts f) = false := by
      have h1 : f.speaking = false := by
        cases hsp : f.speaking
        · rfl
        · exact absurd (Or.inl hsp) hs
      have h2 : recentTts f = false := by
        cases hrt : recentTts f
        · rfl
        · exact absurd (Or.inr hrt) hs
      simp [h1, h2]
    refine ⟨?_, fun hc => absurd hc hs, fun hc => absurd hc hs,
      fun hc => absurd hc hs, ?_⟩
    · intro _
      simp [frameStep, hb]
    · simp [frameStep, hb, hs]

/-- Witness: during SPEAKING, one loud 20 ms frame extends the streak to
1 but 20 ms < 200 ms, so the frame is dropped; a quiet frame resets the
streak to 0 and is dropped too. -/
theorem claim_C7_witness :
    (frameStep ⟨false, 0, -50, 0⟩ ⟨0, 20, true, 0, none⟩).vad.bargeInFrames
        = 0 + 1 ∧
      (frameStep ⟨false, 0, -50, 5⟩ ⟨-49, 20, true, 0, none⟩).vad.bargeInFrames
          = 0 ∧
        (frameStep ⟨false, 0, -50, 5⟩ ⟨-49, 20, true, 0, none⟩).fedAsr = false := by
  refine ⟨(claim_C7_theorem ⟨false, 0, -50, 0⟩ ⟨0, 20, true, 0, none⟩).2.2.1
      (Or.inl rfl) (by norm_num [noiseFloorAfter, BARGE_IN_DB_ABOVE_NOISE]), ?_, ?_⟩
  · exact ((claim_C7_theorem ⟨false, 0, -50, 5⟩ ⟨-49, 20, true, 0, none⟩).2.2.2.1
      (Or.inl rfl) (by norm_num [noiseFloorAfter, BARGE_IN_DB_ABOVE_NOISE])).1
  · exact ((claim_C7_theorem ⟨false, 0, -50, 5⟩ ⟨-49, 20, true, 0, none⟩).2.2.2.1
      (Or.inl rfl) (by norm_num [noiseFloorAfter, BARGE_IN_DB_ABOVE_NOISE])).2



/-! ## Connection registry (`app/websocket/manager.py`,
`ConnectionManager.connect` / `disconnect`)

`active_connections` is a dict keyed by conversation id; all mutations
run under `self._lock`, so overlapping admits serialize and are
modelled as sequential calls.  `connect` closes any prior entry (code
1000, reason "New connection established") and then stores the new
socket under the key. -/

/-- The registry as an association list `conversation_id → websocket`. -/
abbrev Registry := List (Nat × Nat)

def lookupReg (reg : Registry) (c : Nat) : Option Nat :=
  match reg.find? (fun e => e.1 == c) with
  | none => none
  | some e => some e.2

/-- `ConnectionManager.connect`: returns the new registry and the list
of sockets closed with the supersession reason. -/
def connectReg (reg : Registry) (c ws : Nat) : Registry × List Nat :=
  let closed :=
    match lookupReg reg c with
    | some old => [old]
    | none => []
  ((c, ws) :: reg.filter (fun e => e.1 ≠ c), closed)

/-- `ConnectionManager.disconnect`. -/
def disconnectReg (reg : Registry) (c : Nat) : Registry :=
  reg.filter (fun e => e.1 ≠ c)

/-- No conversation id appears twice. -/
def keysNodup (reg : Registry) : Prop := (reg.map Prod.fst).Nodup

/-- How many connections the registry holds for conversation `c`. -/
def entryCount (reg : Registry) (c : Nat) : Nat :=
  (reg.filter (fun e => e.1 == c)).length

theorem entryCount_filter_ne (reg : Registry) (c : Nat) :
    entryCount (reg.filter (fun e => e.1 ≠ c)) c = 0 := by
  unfold entryCount
  rw [List.length_eq_zero, List.filter_eq_nil_iff]
  intro a ha
  simp only [List.mem_filter, decide_eq_true_eq] at ha
  simp [ha.2]

theorem entryCount_connect (reg : Registry) (c ws : Nat) :
    entryCount (connectReg reg c ws).1 c = 1 := by
  have h0 := entryCount_filter_ne reg c
  unfold entryCount at h0 ⊢
  simp only [connectReg, List.filter_cons, beq_self_eq_true, if_true,
    List.length_cons]
  omega

theorem keysNodup_filter (reg : Registry) (p : Nat × Nat → Bool)
    (h : keysNodup reg) : keysNodup (reg.filter p) := by
  unfold keysNodup at *
  exact h.sublist (List.Sublist.map Prod.fst (List.filter_sublist reg))

theorem not_mem_keys_filter_ne (reg : Registry) (c : Nat) :
    c ∉ (reg.filter (fun e => e.1 ≠ c)).map Prod.fst := by
  intro hmem
  simp [List.mem_map, List.mem_filter] at hmem

theorem keysNodup_connect (reg : Registry) (c ws : Nat)
    (h : keysNodup reg) : keysNodup (connectReg reg c ws).1 := by
  unfold connectReg keysNodup
  simp only [List.map_cons]
  exact List.nodup_cons.mpr
    ⟨not_mem_keys_filter_ne reg c, keysNodup_filter reg _ h⟩

theorem entryCount_le_one (reg : Registry) (c : Nat)
    (h : keysNodup reg) : entryCount reg c ≤ 1 := by
  induction reg with
  | nil => simp [entryCount]
  | cons e t ih =>
    unfold keysNodup at h
    simp only [List.map_cons, List.nodup_cons] at h
    have ht := ih h.2
    unfold entryCount at ht ⊢
    rw [List.filter_cons]
    by_cases he : e.1 = c
    · subst he
      have hz : (t.filter (fun x => x.1 == e.1)).length = 0 := by
        rw [List.length_eq_zero, List.filter_eq_nil_iff]
        intro a ha
        simp only [beq_iff_eq]
        intro hac
        exact h.1 (List.mem_map.mpr ⟨a, ha, hac⟩)
      simp [hz]
    · have hb : (e.1 == c) = false := by simp [he]
      simp [hb, ht]

theorem lookupReg_connect (reg : Registry) (c ws : Nat) :
    lookupReg (connectReg reg c ws).1 c = some ws := by
  simp [connectReg, lookupReg, List.find?]

/-- Claim C9: (a) admitting preserves the at-most-one-per-conversation
invariant, and a registry with distinct keys holds at most one entry
per conversation; (b) admitting over a registered connection closes
exactly that socket once and replaces it; (c) two overlapping admits
(serialized by the registry lock) close the first socket exactly once
and leave exactly one surviving registered connection, the second; an
admit always leaves exactly one entry for the conversation. -/
theorem claim_C9_theorem :
    (∀ (reg : Registry) (c ws : Nat), keysNodup reg →
        keysNodup (connectReg reg c ws).1) ∧
      (∀ (reg : Registry) (c : Nat), keysNodup reg → entryCount reg c ≤ 1) ∧
      (∀ (reg : Registry) (c w1 w2 : Nat), lookupReg reg c = some w1 →
        (connectReg reg c w2).2 = [w1] ∧
          lookupReg (connectReg reg c w2).1 c = some w2) ∧
      (∀ (reg : Registry) (c w1 w2 : Nat), lookupReg reg c = none →
        (connectReg reg c w1).2 = [] ∧
          (connectReg (connectReg reg c w1).1 c w2).2 = [w1] ∧
          lookupReg (connectReg (connectReg reg c w1).1 c w2).1 c = some w2 ∧
          entryCount (connectReg (connectReg reg c w1).1 c w2).1 c = 1) ∧
      (∀ (reg : Registry) (c ws : Nat),
        entryCount (connectReg reg c ws).1 c = 1) := by
  refine ⟨keysNodup_connect, entryCount_le_one, ?_, ?_, ?_⟩
  · intro reg c w1 w2 hl
    exact ⟨by simp [connectReg, hl], lookupReg_connect reg c w2⟩
  · intro reg c w1 w2 hl
    have h1 := lookupReg_connect reg c w1
    refine ⟨by simp [connectReg, hl], ?_, lookupReg_connect _ c w2,
      entryCount_connect _ c w2⟩
    show (match lookupReg (connectReg reg c w1).1 c with
      | some old => [old] | none => []) = [w1]
    rw [h1]
  · intro reg c ws
    exact entryCount_connect reg c ws

/-- Witness: starting from an empty registry, two overlapping admits
for conversation 9 close socket 1 exactly once and leave socket 2 as
the single registered connection. -/
theorem claim_C9_witness :
    (connectReg (connectReg ([] : Registry) 9 1).1 9 2).2 = [1] ∧
      lookupReg (connectReg (connectReg ([] : Registry) 9 1).1 9 2).1 9 = some 2 ∧
      entryCount (connectReg (connectReg ([] : Registry) 9 1).1 9 2).1 9 = 1 := by
  have h := claim_C9_theorem.2.2.2.1 ([] : Registry) 9 1 2 (by decide)
  exact ⟨h.2.1, h.2.2.1, h.2.2.2⟩

/-! ## Frame energy (`app/websocket/handler.py`, `_pcm_rms_db`) -/

/-- `int.from_bytes(pcm_bytes[i:i+2], "little", signed=True)` over the
consecutive byte pairs (a trailing odd byte is ignored, exactly as the
source's `range(0, sample_count * 2, 2)` does). -/
def toSamples : List (Fin 256) → List Int
  | lo :: hi :: rest =>
    (if (lo : Nat) + 256 * (hi : Nat) ≥ 32768 then
        ((lo : Nat) + 256 * (hi : Nat) : Int) - 65536
      else ((lo : Nat) + 256 * (hi : Nat) : Int)) :: toSamples rest
  | _ => []

/-- `sum_squares`. -/
def sumSquares (bs : List (Fin 256)) : Int :=
  ((toSamples bs).map fun s => s * s).sum

/-- `sample_count = len(pcm_bytes) // 2`. -/
def sampleCount (bs : List (Fin 256)) : Nat := bs.length / 2

/-- `rms = math.sqrt(sum_squares / max(1, sample_count))`. -/
noncomputable def rmsVal (bs : List (Fin 256)) : ℝ :=
  Real.sqrt ((sumSquares bs : ℝ) / ((max 1 (sampleCount bs) : ℕ) : ℝ))

/-- `_pcm_rms_db`. -/
noncomputable def pcmRmsDb (bs : List (Fin 256)) : ℝ :=
  if bs.length < 2 then -100
  else if rmsVal bs ≤ 0 then -100
  else 20 * Real.logb 10 (rmsVal bs / 32768)

theorem sumSquares_nonneg (bs : List (Fin 256)) : 0 ≤ sumSquares bs := by
  unfold sumSquares
  apply List.sum_nonneg
  intro x hx
  simp [List.mem_map] at hx
  obtain ⟨a, _, rfl⟩ := hx
  exact mul_self_nonneg a

theorem rmsVal_nonneg (bs : List (Fin 256)) : 0 ≤ rmsVal bs :=
  Real.sqrt_nonneg _

/-- Claim C10: the RMS computation is total and guarded — short inputs
return −100, the divisor is clamped to at least 1, a non-positive RMS
returns −100 without reaching the logarithm, and in the logarithm
branch the argument is strictly positive. -/
theorem claim_C10_theorem (bs : List (Fin 256)) :
    (bs.length < 2 → pcmRmsDb bs = -100) ∧
      1 ≤ max 1 (sampleCount bs) ∧
      0 ≤ sumSquares bs ∧
      0 ≤ rmsVal bs ∧
      (rmsVal bs ≤ 0 → pcmRmsDb bs = -100) ∧
      (0 < rmsVal bs → ¬ bs.length < 2 →
        pcmRmsDb bs = 20 * Real.logb 10 (rmsVal bs / 32768) ∧
          0 < rmsVal bs / 32768) := by
  refine ⟨?_, le_max_left 1 _, sumSquares_nonneg bs, rmsVal_nonneg bs, ?_, ?_⟩
  · intro h
    simp [pcmRmsDb, h]
  · intro h
    by_cases hl : bs.length < 2
    · simp [pcmRmsDb, hl]
    · simp [pcmRmsDb, hl, h]
  · intro hpos hl
    constructor
    · rw [pcmRmsDb, if_neg hl, if_neg (not_le.mpr hpos)]
    · exact div_pos hpos (by norm_num)

/-- Witness: the one-byte input takes the short-input guard. -/
theorem claim_C10_witness : pcmRmsDb [(0 : Fin 256)] = -100 :=
  (claim_C10_theorem [(0 : Fin 256)]).1 (by decide)


end ZRobot
